import Mathlib

/-!
Verification development for the CAST C parser/preprocessor front end.

The definitions below are a shallow embedding of the library's public entry
points (`src/cast.c`: `cc_link_progs`, `cc_init`, `cc_preprocess`,
`cc_print_tokens`, `cc_define`/`parse_define`) and of the CLI driver's option
handling (`src/main.c`).  Heap-allocated linked structures of the C code are
modelled as Lean lists; the in-place mutation performed by `cc_link_progs` is
modelled by a store function `Nat → Obj` indexed by the position of each
object in the concatenated input lists.  Code of the repository that is not
part of the sources at hand (tokenizer, preprocessor internals) is either
passed in as an oracle parameter or modelled from the specification, as noted
on each definition.
-/

namespace CAST

/-- A token as far as the printing and preprocessing entry points observe it:
its source text (`loc`/`len` in the C struct, here the characters themselves),
the `at_bol` flag and the `has_space` flag.  Mirrors `struct Token` in
`cast.h` restricted to the fields read by `cc_print_tokens`. -/
structure Tok where
  text : List Char
  at_bol : Bool
  has_space : Bool
deriving DecidableEq, Repr

/-- Embedding of `cc_print_tokens` (cast.c): the loop body, with the `line`
counter threaded through.  The C code prints to `stdout`; here the emitted
characters are collected in a list.  The token list models the stream up to
(not including) the terminating `TK_EOF` token, and the final `['\n']` is the
`fprintf(out, "\n")` after the loop. -/
def printTokensAux : List Tok → Nat → List Char
  | [], _ => ['\n']
  | t :: rest, line =>
    (if 1 < line ∧ t.at_bol = true then ['\n'] else []) ++
    (if t.has_space = true ∧ t.at_bol = false then [' '] else []) ++
    t.text ++ printTokensAux rest (line + 1)

/-- Embedding of `cc_print_tokens` (cast.c): `line` starts at 1. -/
def cc_print_tokens (ts : List Tok) : List Char :=
  printTokensAux ts 1

/-- The printer as the claim describes it (for comparison with the code):
"a newline exactly when the token being printed has `at_beginning_of_line`
set, a single space exactly when it has `has_leading_space` set, and
concatenating the token texts otherwise". -/
def printTokensClaimed (ts : List Tok) : List Char :=
  (ts.map (fun t =>
    (if t.at_bol = true then ['\n'] else []) ++
    (if t.has_space = true then [' '] else []) ++ t.text)).flatten

/-- Map over a list with the position of each element, starting at `i`. -/
def mapWithIdx (f : Nat → Tok → List Char) : Nat → List Tok → List (List Char)
  | _, [] => []
  | i, t :: rest => f i t :: mapWithIdx f (i + 1) rest

/-- The amended description of the preprocessed-output printer: a newline
exactly when a token other than the first has `at_bol` set, a single space
exactly when a token has `has_space` set and `at_bol` clear, token texts
concatenated otherwise, and one trailing newline. -/
def printTokensAmended (ts : List Tok) : List Char :=
  (mapWithIdx (fun i t =>
    (if 0 < i ∧ t.at_bol = true then ['\n'] else []) ++
    (if t.has_space = true ∧ t.at_bol = false then [' '] else []) ++ t.text) 0 ts).flatten
  ++ ['\n']

/-- The session state (`struct CAST` plus the `Compiler` sub-struct fields
that the claims are about, cast.h).  Counters and the collected error list
are modelled directly; `errors` holds the formatted messages. -/
structure Session where
  embed_limit : Nat
  embed_hard_limit : Nat
  embed_hard_error : Bool
  use_std_inc : Bool
  skip_preprocess : Bool
  max_errors : Int
  collect_errors : Bool
  warnings_as_errors : Bool
  error_count : Nat
  warning_count : Nat
  errors : List String
deriving DecidableEq, Repr

/-- Embedding of `cc_init` (cast.c): `memset(vm, 0, sizeof(CAST))` zeroes
every field (counters 0, lists empty, flags false), then the embed limits,
`use_std_inc`, `max_errors = 20` and the error-mode flags are assigned.
`flags` is reserved and ignored (`(void)flags`). -/
def cc_init (flags : Nat) : Session :=
  { embed_limit := 10 * 1024 * 1024
    embed_hard_limit := 50 * 1024 * 1024
    embed_hard_error := false
    use_std_inc := true
    skip_preprocess := false
    max_errors := 20
    collect_errors := false
    warnings_as_errors := false
    error_count := 0
    warning_count := 0
    errors := [] }

/-- Outcome of reporting one diagnostic: either the session with the message
collected, or the non-local escape (`longjmp`) was taken. -/
inductive DiagResult where
  | collected (s : Session)
  | escaped
deriving DecidableEq, Repr

/-- Modelled from the spec: the diagnostic dispatch of `error_tok`
(tokenize.c, not among the sources at hand).  Spec §5/§7: "Errors either
(a) accumulate into a bounded list (when error-collection is enabled; bound =
`max_errors`, ...; further errors after the bound cause the current stage to
abort via the non-local escape mechanism) or (b) immediately take the escape
when collection is disabled." -/
def reportError (s : Session) (msg : String) : DiagResult :=
  if s.collect_errors = true then
    if s.max_errors < (s.error_count : Int) + 1 then .escaped
    else .collected { s with errors := s.errors ++ [msg],
                             error_count := s.error_count + 1 }
  else .escaped

/-- The CLI driver's local option state (`main` in main.c), restricted to the
options the claims are about.  Initial values are those of the C locals:
`max_errors = 20`, `warnings_as_errors = 0`, `embed_limit = 0`,
`embed_hard_error = 0`, `skip_preprocess = 0`. -/
structure DriverConfig where
  max_errors : Int
  warnings_as_errors : Bool
  embed_limit : Nat
  embed_hard_error : Bool
  skip_preprocess : Bool
deriving DecidableEq, Repr

/-- Initial driver option state (main.c, lines 163-172). -/
def driverInitConfig : DriverConfig :=
  { max_errors := 20
    warnings_as_errors := false
    embed_limit := 0
    embed_hard_error := false
    skip_preprocess := false }

/-- One recognized command-line option, as dispatched by the `switch` in
`main` (main.c).  The numeric payloads are the already-converted values
(`atoi` for `--max-errors`, `parse_size` for `--embed-limit`). -/
inductive CliOpt where
  | maxErrors (n : Int)
  | werror
  | embedLimit (n : Nat)
  | embedHardLimit
  | noPreprocess
deriving DecidableEq, Repr

/-- The `switch` cases of `main` for the modelled options (main.c):
`--max-errors` rejects non-positive values with an error exit, the other
options set their flag. -/
def applyOpt (c : DriverConfig) : CliOpt → Except String DriverConfig
  | .maxErrors n =>
    if n ≤ 0 then .error "--max-errors must be a positive integer"
    else .ok { c with max_errors := n }
  | .werror => .ok { c with warnings_as_errors := true }
  | .embedLimit n => .ok { c with embed_limit := n }
  | .embedHardLimit => .ok { c with embed_hard_error := true }
  | .noPreprocess => .ok { c with skip_preprocess := true }

/-- The driver's option loop (main.c): fold the recognized options over the
initial local state. -/
def parseOpts (opts : List CliOpt) : Except String DriverConfig :=
  opts.foldlM applyOpt driverInitConfig

/-- The driver's session setup (main.c, lines 305-322 and 344): `cc_init`,
then `--embed-limit` (when positive) overrides both `embed_limit` and
`embed_hard_limit`, `--embed-hard-limit` sets `embed_hard_error`, error
collection is enabled with the configured `max_errors` and `--Werror`, and
`skip_preprocess` is copied from `-X`. -/
def configureSession (cfg : DriverConfig) : Session :=
  let s := cc_init 0
  let s := if 0 < cfg.embed_limit then
      { s with embed_limit := cfg.embed_limit, embed_hard_limit := cfg.embed_limit }
    else s
  let s := if cfg.embed_hard_error = true then { s with embed_hard_error := true } else s
  { s with collect_errors := true
           max_errors := cfg.max_errors
           warnings_as_errors := cfg.warnings_as_errors
           skip_preprocess := cfg.skip_preprocess }

/-- Result of processing one `#embed` directive: how many warnings and errors
it produced and the embedded byte values (as integer literals), if any. -/
structure EmbedOutcome where
  warnings : Nat
  errors : Nat
  embedded : Option (List Nat)
deriving DecidableEq, Repr

/-- Modelled from the spec: the `#embed` size-limit check of the preprocessor
(preprocess.c, not among the sources at hand).  Spec §6/§8f: exceeding the
configured limit is one warning and the full contents are still embedded;
with `--embed-hard-limit` it is one error and nothing is embedded. -/
def processEmbed (s : Session) (contents : List Nat) : EmbedOutcome :=
  if s.embed_limit < contents.length then
    if s.embed_hard_error = true then ⟨0, 1, none⟩
    else ⟨1, 0, some contents⟩
  else ⟨0, 0, some contents⟩

/-- Embedding of `append_tokens` (cast.c) on token lists (an empty list
models a null stream or a bare EOF stream; otherwise the second stream is
spliced in before the EOF of the first). -/
def appendTokens (t1 t2 : List Tok) : List Tok :=
  if t1 = [] then t2 else t1 ++ t2

/-- Embedding of `cc_preprocess` (cast.c).  The tokenizer (`tokenize_file`,
tokenize.c) and the preprocessor stage (`preprocess`, preprocess.c) are not
among the sources at hand and are passed as oracle functions; `tokenizeFile`
returning `none` models `tokenize_file` returning NULL (unreadable file), on
which `must_tokenize_file` raises the fatal error. -/
def cc_preprocess (s : Session) (tokenizeFile : String → Option (List Tok))
    (preprocessFn : List Tok → List Tok) (path : String) : Except String (List Tok) :=
  match tokenizeFile path with
  | none => .error (path ++ ": cannot open file")
  | some tok2 =>
    let tok := appendTokens [] tok2
    .ok (if s.skip_preprocess = true then tok else preprocessFn tok)

/-- Embedding of `parse_define` (main.c): split the `-D` argument at the
first `=` into macro name and replacement body; without `=` the body is
`"1"`.  Returns (name, body) as passed to `cc_define`. -/
def parse_define : List Char → List Char × List Char
  | [] => ([], ['1'])
  | c :: rest =>
    if c = '=' then ([], rest)
    else
      let p := parse_define rest
      (c :: p.1, p.2)

/-- A top-level object (`struct Obj`, cast.h), restricted to the fields that
`cc_link_progs` reads and writes: name, definition flags, function body
presence, global initializer data and the type (types are identified by a
numeric id since `cc_link_progs` only copies the `ty` pointer). -/
structure Obj where
  name : String
  is_definition : Bool
  is_function : Bool
  has_body : Bool
  init_data : Option Nat
  ty : Nat
deriving DecidableEq, Repr

instance : Inhabited Obj := ⟨⟨"", false, false, false, none, 0⟩⟩

/-- The definition test of `cc_link_progs` (cast.c):
`obj->is_definition || (obj->is_function && obj->body) ||
(!obj->is_function && obj->init_data)`. -/
def objIsDef (o : Obj) : Bool :=
  o.is_definition || (o.is_function && o.has_body) || (!o.is_function && o.init_data.isSome)

/-- The property copy of `cc_link_progs` (cast.c): `dst->is_definition =
src->is_definition; dst->init_data = src->init_data; dst->ty = src->ty`. -/
def copyDefProps (dst src : Obj) : Obj :=
  { dst with is_definition := src.is_definition
             init_data := src.init_data
             ty := src.ty }

/-- The symbol map of `cc_link_progs`: name to position (in the concatenated
input lists) of the object the C hashmap entry points at. -/
abbrev SymMap := List (String × Nat)

/-- `hashmap_get` (hashmap.c) on the association-list model: the value stored
for the key, if present. -/
def hmGet : SymMap → String → Option Nat
  | [], _ => none
  | e :: rest, k => if e.1 = k then some e.2 else hmGet rest k

/-- `hashmap_put` (hashmap.c) on the association-list model: replace the
entry for the key if present, otherwise add one. -/
def hmPut : SymMap → String → Nat → SymMap
  | [], k, v => [(k, v)]
  | e :: rest, k, v => if e.1 = k then (k, v) :: rest else e :: hmPut rest k v

/-- Point update of the object store (models the in-place mutation of an
`Obj` reached through a pointer). -/
def updStore (f : Nat → Obj) (j : Nat) (v : Obj) : Nat → Obj :=
  fun i => if i = j then v else f i

/-- State of the first pass of `cc_link_progs`: the object store, the symbol
map and the collected error messages. -/
structure P1 where
  store : Nat → Obj
  map : SymMap
  errs : List String

/-- One iteration of the first pass of `cc_link_progs` (cast.c, "First pass:
collect all symbols, preferring definitions"), processing the object at
position `j`.  `error_tok` in collection mode records the message and
returns, so the loop continues; the branches follow the C source:
new symbol — insert; both definitions — redefinition error; new one a
definition — re-point the map and copy the definition's properties onto the
old declaration; existing a definition — copy its properties onto the new
declaration; both declarations — keep the first. -/
def pass1Step (st : P1) (j : Nat) : P1 :=
  let o := st.store j
  match hmGet st.map o.name with
  | none => ⟨st.store, hmPut st.map o.name j, st.errs⟩
  | some k =>
    let ex := st.store k
    if objIsDef o && objIsDef ex then
      ⟨st.store, st.map, st.errs ++ ["redefinition of \x27" ++ o.name ++ "\x27"]⟩
    else if objIsDef o then
      ⟨updStore st.store k (copyDefProps ex o), hmPut st.map o.name j, st.errs⟩
    else if objIsDef ex then
      ⟨updStore st.store j (copyDefProps o ex), st.map, st.errs⟩
    else st

/-- The first pass of `cc_link_progs`, iterated over the positions of all
objects in the concatenated input lists. -/
def runPass1 : P1 → List Nat → P1
  | st, [] => st
  | st, j :: js => runPass1 (pass1Step st j) js

/-- State of the second pass of `cc_link_progs`: the object store and the
merged output list built so far. -/
structure P2 where
  store : Nat → Obj
  merged : List Obj

/-- One iteration of the second pass of `cc_link_progs` (cast.c, "Second
pass: build the merged linked list and propagate definition info"): a
non-canonical object receives the canonical object's properties; a canonical
object is appended to the merged list. -/
def pass2Step (m : SymMap) (st : P2) (j : Nat) : P2 :=
  let o := st.store j
  match hmGet m o.name with
  | none => st
  | some k =>
    if k = j then ⟨st.store, st.merged ++ [o]⟩
    else ⟨updStore st.store j (copyDefProps o (st.store k)), st.merged⟩

/-- The second pass of `cc_link_progs`. -/
def runPass2 (m : SymMap) : P2 → List Nat → P2
  | st, [] => st
  | st, j :: js => runPass2 m (pass2Step m st j) js

/-- Result of `cc_link_progs`: the merged list it returns, the final state of
all objects of the input lists (concatenated, in order, after the in-place
mutations of both passes) and the collected error messages. -/
structure LinkResult where
  merged : List Obj
  store : List Obj
  errs : List String
deriving DecidableEq, Repr

/-- Initial first-pass state for `cc_link_progs` on the given programs: the
store holds the concatenated input objects, map and errors are empty. -/
def linkInit (progs : List (List Obj)) : P1 :=
  ⟨fun j => progs.flatten.getD j default, [], []⟩

/-- The first pass of `cc_link_progs` run on all objects. -/
def linkP1 (progs : List (List Obj)) : P1 :=
  runPass1 (linkInit progs) (List.range progs.flatten.length)

/-- The second pass of `cc_link_progs` run on all objects. -/
def linkP2 (progs : List (List Obj)) : P2 :=
  runPass2 (linkP1 progs).map ⟨(linkP1 progs).store, []⟩ (List.range progs.flatten.length)

/-- Embedding of `cc_link_progs` (cast.c).  A null `vm`/`progs` or
`count <= 0` is the fatal invalid-arguments error (modelled by the empty
program array); `count == 1` returns `progs[0]` unchanged; otherwise the two
passes run and the merged list is returned.  The `errs` component holds the
`error_tok` messages recorded in error-collection mode; a run that returns
normally without diagnostics has `errs = []`. -/
def cc_link_progs (progs : List (List Obj)) : Except String LinkResult :=
  if progs.length = 0 then .error "cc_link_progs: invalid arguments"
  else if progs.length = 1 then .ok ⟨progs.headD [], progs.flatten, []⟩
  else
    let n := progs.flatten.length
    .ok ⟨(linkP2 progs).merged, (List.range n).map (linkP2 progs).store, (linkP1 progs).errs⟩

/-- The first-seen order of names, as the claim states it: every name in
order of its first occurrence in the concatenated input lists. -/
def firstSeenNames (l : List Obj) : List String :=
  l.foldl (fun acc o => if o.name ∈ acc then acc else acc ++ [o.name]) []


/-- Invariant of the first pass of `cc_link_progs`, relating the running
state `st` to the original store `s0f` after the objects at the positions
satisfying `done` have been processed:
the map's entries point at processed positions carrying the looked-up name
(`m1`), every processed name is in the map (`m2`), unprocessed store entries
are untouched (`unproc`), map targets hold their original values (`targ`),
once a processed object was a definition the map target for its name is a
definition (`defs`), and no mutation changes a name (`nms`). -/
structure Inv1 (s0f : Nat → Obj) (done : Nat → Prop) (st : P1) : Prop where
  m1 : ∀ nm k, hmGet st.map nm = some k → done k ∧ (s0f k).name = nm
  m2 : ∀ j, done j → (hmGet st.map ((s0f j).name)).isSome = true
  unproc : ∀ j, ¬ done j → st.store j = s0f j
  targ : ∀ nm k, hmGet st.map nm = some k → st.store k = s0f k
  defs : ∀ j, done j → objIsDef (s0f j) = true →
    ∃ k, hmGet st.map ((s0f j).name) = some k ∧ objIsDef (s0f k) = true
  nms : ∀ j, (st.store j).name = (s0f j).name

/-- Invariant of the second pass of `cc_link_progs`, relating the running
state to the store left by the first pass (`s1f`): no mutation changes a
name, and canonical positions (those the map sends their own name to) are
never mutated. -/
structure Inv2 (m : SymMap) (s1f : Nat → Obj) (st : P2) : Prop where
  nms : ∀ j, (st.store j).name = (s1f j).name
  targ : ∀ k, hmGet m ((s1f k).name) = some k → st.store k = s1f k

/-- Concrete two-unit example for witnesses: unit 1 defines `x` and `y`,
unit 2 redefines `x` and declares `y`. -/
def exProgs : List (List Obj) :=
  [[⟨"x", true, false, false, none, 10⟩, ⟨"y", true, false, false, none, 20⟩],
   [⟨"x", true, false, false, none, 11⟩, ⟨"y", false, false, false, none, 21⟩]]

/-- The result `cc_link_progs` computes on `exProgs`. -/
def exRes : LinkResult :=
  ⟨[⟨"x", true, false, false, none, 10⟩, ⟨"y", true, false, false, none, 20⟩],
   [⟨"x", true, false, false, none, 10⟩, ⟨"y", true, false, false, none, 20⟩,
    ⟨"x", true, false, false, none, 10⟩, ⟨"y", true, false, false, none, 20⟩],
   ["redefinition of \x27x\x27"]⟩

/-- Concrete two-unit example with disjoint names for witnesses. -/
def exProgsAB : List (List Obj) :=
  [[⟨"a", true, false, false, none, 1⟩], [⟨"b", true, false, false, none, 2⟩]]

/-- The result `cc_link_progs` computes on `exProgsAB`. -/
def exResAB : LinkResult :=
  ⟨[⟨"a", true, false, false, none, 1⟩, ⟨"b", true, false, false, none, 2⟩],
   [⟨"a", true, false, false, none, 1⟩, ⟨"b", true, false, false, none, 2⟩],
   []⟩

/-! ### Helper lemmas: token printing -/

/-- `mapWithIdx` starting at a positive index never sees index 0, so the
first-token special case is gone. -/
theorem mapWithIdx_succ (ts : List Tok) : ∀ i : Nat,
    mapWithIdx (fun i t =>
      (if 0 < i ∧ t.at_bol = true then ['\n'] else []) ++
      (if t.has_space = true ∧ t.at_bol = false then [' '] else []) ++ t.text) (i + 1) ts =
    ts.map (fun t =>
      (if t.at_bol = true then ['\n'] else []) ++
      (if t.has_space = true ∧ t.at_bol = false then [' '] else []) ++ t.text) := by
  induction ts with
  | nil => intro i; rfl
  | cons t rest ih =>
    intro i
    simp only [mapWithIdx, List.map_cons, ih (i + 1), Nat.succ_pos, true_and]

/-- After the first token the `line > 1` guard of `cc_print_tokens` is always
taken, so every remaining token separates with the full rule. -/
theorem printTokensAux_ge_two (ts : List Tok) : ∀ line : Nat, 2 ≤ line →
    printTokensAux ts line =
    (ts.map (fun t =>
      (if t.at_bol = true then ['\n'] else []) ++
      (if t.has_space = true ∧ t.at_bol = false then [' '] else []) ++ t.text)).flatten
    ++ ['\n'] := by
  induction ts with
  | nil => intro line h; simp [printTokensAux]
  | cons t rest ih =>
    intro line h
    have h1 : 1 < line := by omega
    rw [printTokensAux, ih (line + 1) (by omega)]
    simp [h1, List.append_assoc]

/-! ### C6 -/

/-- C6 counterexample: on the stream `a`, `b` where `b` has both `at_bol` and
`has_space` set, `cc_print_tokens` prints `a\nb\n` (no space after the
newline, and a trailing newline), while the rule stated by the claim would
print `a\n b`. -/
theorem cc_print_tokens_claim_cex :
    cc_print_tokens [⟨['a'], false, false⟩, ⟨['b'], true, true⟩] ≠
      printTokensClaimed [⟨['a'], false, false⟩, ⟨['b'], true, true⟩] ∧
    cc_print_tokens [⟨['a'], false, false⟩, ⟨['b'], true, true⟩] = ['a', '\n', 'b', '\n'] ∧
    printTokensClaimed [⟨['a'], false, false⟩, ⟨['b'], true, true⟩] = ['a', '\n', ' ', 'b'] := by
  decide

/-- C6 (amended): `cc_print_tokens` re-emits the token texts in order,
inserting a newline exactly when a token other than the first has
`at_beginning_of_line` set, a single space exactly when a token has
`has_leading_space` set and `at_beginning_of_line` clear, concatenating the
texts otherwise, and appending one trailing newline. -/
theorem cc_print_tokens_eq_amended (ts : List Tok) :
    cc_print_tokens ts = printTokensAmended ts := by
  cases ts with
  | nil => rfl
  | cons t rest =>
    rw [cc_print_tokens, printTokensAux, printTokensAux_ge_two rest 2 (by omega),
        printTokensAmended, mapWithIdx, mapWithIdx_succ rest 0]
    simp [List.append_assoc]

/-! ### C7 -/

/-- C7: with the session's `skip_preprocess` flag set (the `-X` /
`--no-preprocess` option), `cc_preprocess` returns exactly the raw
tokenization of the file: the preprocessor stage (whatever function it is)
is never applied. -/
theorem cc_preprocess_skip (s : Session) (tokenizeFile : String → Option (List Tok))
    (preprocessFn : List Tok → List Tok) (path : String) (ts : List Tok)
    (hskip : s.skip_preprocess = true) (htok : tokenizeFile path = some ts) :
    cc_preprocess s tokenizeFile preprocessFn path = .ok ts := by
  simp [cc_preprocess, htok, appendTokens, hskip]

/-- C7 witness: a session configured through the driver's `-X` option, a
concrete one-token file, and a preprocessor oracle that would discard
everything: the raw tokenization comes back unchanged. -/
theorem cc_preprocess_skip_witness :
    cc_preprocess (configureSession ⟨20, false, 0, false, true⟩)
      (fun p => if p = "f.c" then some [⟨['i', 'n', 't'], true, false⟩] else none)
      (fun _ => []) "f.c" = .ok [⟨['i', 'n', 't'], true, false⟩] :=
  cc_preprocess_skip _ _ _ _ _ (by decide) (by decide)

/-! ### C8 -/

/-- Splitting helper: a `-D` argument without `=` is kept whole and paired
with body `"1"`. -/
theorem parse_define_no_eq : ∀ arg : List Char, '=' ∉ arg →
    parse_define arg = (arg, ['1']) := by
  intro arg
  induction arg with
  | nil => intro _; rfl
  | cons c rest ih =>
    intro h
    have hc : ¬ c = '=' := fun hc => h (hc ▸ List.mem_cons_self c rest)
    have hr : '=' ∉ rest := fun hm => h (List.mem_cons_of_mem c hm)
    simp [parse_define, hc, ih hr]

/-- Splitting helper: a `-D` argument of the form `name=val` (first `=` the
separator) splits into `name` and `val`. -/
theorem parse_define_with_eq : ∀ (nm val : List Char), '=' ∉ nm →
    parse_define (nm ++ '=' :: val) = (nm, val) := by
  intro nm val
  induction nm with
  | nil => intro _; simp [parse_define]
  | cons c rest ih =>
    intro h
    have hc : ¬ c = '=' := fun hc => h (hc ▸ List.mem_cons_self c rest)
    have hr : '=' ∉ rest := fun hm => h (List.mem_cons_of_mem c hm)
    simp [parse_define, hc, ih hr]

/-- C8: `parse_define` (the `-D` handler) defines the macro with body `"1"`
when the argument contains no `=`, and splits `name=val` into name and
body `val` at the first `=`. -/
theorem parse_define_spec (arg nm val : List Char) :
    ('=' ∉ arg → parse_define arg = (arg, ['1'])) ∧
    ('=' ∉ nm → parse_define (nm ++ '=' :: val) = (nm, val)) :=
  ⟨parse_define_no_eq arg, parse_define_with_eq nm val⟩

/-- C8 witness: `-D DBG` defines `DBG` as `1`; `-D N=2` defines `N` as `2`. -/
theorem parse_define_spec_witness :
    parse_define ['D', 'B', 'G'] = (['D', 'B', 'G'], ['1']) ∧
    parse_define (['N'] ++ '=' :: ['2']) = (['N'], ['2']) :=
  ⟨(parse_define_spec ['D', 'B', 'G'] [] []).1 (by decide),
   (parse_define_spec [] ['N'] ['2']).2 (by decide)⟩

/-! ### C9 -/

/-- Folding the option loop over options that do not include `--max-errors`
leaves the `max_errors` field untouched. -/
theorem foldOpts_max_errors : ∀ (opts : List CliOpt) (c cfg : DriverConfig),
    (∀ n : Int, CliOpt.maxErrors n ∉ opts) →
    List.foldlM applyOpt c opts = .ok cfg → cfg.max_errors = c.max_errors := by
  intro opts
  induction opts with
  | nil =>
    intro c cfg _ h
    simp only [List.foldlM, pure, Except.pure] at h
    cases h
    rfl
  | cons o rest ih =>
    intro c cfg hno h
    rw [List.foldlM_cons] at h
    cases o with
    | maxErrors n => exact absurd (List.mem_cons_self _ _) (fun hm => hno n hm)
    | werror =>
      have := ih { c with warnings_as_errors := true } cfg
        (fun n hm => hno n (List.mem_cons_of_mem _ hm)) h
      simpa using this
    | embedLimit n =>
      have := ih { c with embed_limit := n } cfg
        (fun n2 hm => hno n2 (List.mem_cons_of_mem _ hm)) h
      simpa using this
    | embedHardLimit =>
      have := ih { c with embed_hard_error := true } cfg
        (fun n2 hm => hno n2 (List.mem_cons_of_mem _ hm)) h
      simpa using this
    | noPreprocess =>
      have := ih { c with skip_preprocess := true } cfg
        (fun n2 hm => hno n2 (List.mem_cons_of_mem _ hm)) h
      simpa using this

/-- C9: the bound on collected errors defaults to 20, both in the library
(`cc_init` sets `max_errors = 20`) and in the CLI driver (its `max_errors`
local starts at 20 and is only changed by `--max-errors`). -/
theorem max_errors_defaults_to_20 (flags : Nat) (opts : List CliOpt) (cfg : DriverConfig)
    (hok : parseOpts opts = .ok cfg)
    (hno : ∀ n : Int, CliOpt.maxErrors n ∉ opts) :
    (cc_init flags).max_errors = 20 ∧ cfg.max_errors = 20 :=
  ⟨rfl, foldOpts_max_errors opts driverInitConfig cfg hno hok⟩

/-- C9 witness: a command line with only `--Werror` leaves the default bound
of 20 in both places. -/
theorem max_errors_defaults_to_20_witness :
    (cc_init 0).max_errors = 20 ∧
    (⟨20, true, 0, false, false⟩ : DriverConfig).max_errors = 20 :=
  max_errors_defaults_to_20 0 [CliOpt.werror] ⟨20, true, 0, false, false⟩ rfl
    (by intro n hm; simp [CliOpt.werror] at hm)

/-! ### C10 -/

/-- C10: after `cc_init`, for any flags value, the session holds no
diagnostics and error collection is off: both counters are 0, the collected
error list is empty, `collect_errors` is false, and hence the first
diagnostic takes the non-local escape (per the spec's error model) unless
the caller enables collection first. -/
theorem cc_init_no_diagnostics (flags : Nat) (msg : String) :
    (cc_init flags).error_count = 0 ∧ (cc_init flags).warning_count = 0 ∧
    (cc_init flags).errors = [] ∧ (cc_init flags).collect_errors = false ∧
    reportError (cc_init flags) msg = .escaped := by
  refine ⟨rfl, rfl, rfl, rfl, ?_⟩
  simp [reportError, cc_init]

/-! ### C5 -/

/-- C5: with `--embed-limit=L` (and a file larger than `L` bytes), the
soft-limit configuration produces exactly one warning and still embeds the
full contents, while adding `--embed-hard-limit` produces exactly one error
and embeds nothing. -/
theorem embed_limit_soft_and_hard (L : Nat) (contents : List Nat) (cfgS cfgH : DriverConfig)
    (hS : parseOpts [CliOpt.embedLimit L] = .ok cfgS)
    (hH : parseOpts [CliOpt.embedLimit L, CliOpt.embedHardLimit] = .ok cfgH)
    (hpos : 0 < L) (hlen : L < contents.length) :
    processEmbed (configureSession cfgS) contents = ⟨1, 0, some contents⟩ ∧
    processEmbed (configureSession cfgH) contents = ⟨0, 1, none⟩ := by
  have eS : parseOpts [CliOpt.embedLimit L] = .ok ⟨20, false, L, false, false⟩ := rfl
  have eH : parseOpts [CliOpt.embedLimit L, CliOpt.embedHardLimit] =
      .ok ⟨20, false, L, true, false⟩ := rfl
  rw [eS] at hS
  rw [eH] at hH
  cases hS
  cases hH
  constructor
  · simp [configureSession, cc_init, processEmbed, hpos, hlen]
  · simp [configureSession, cc_init, processEmbed, hpos, hlen]

/-- C5 witness: a 100-byte file with `--embed-limit=50`: one warning and all
100 byte values embedded; with `--embed-hard-limit` additionally: one error
and nothing embedded. -/
theorem embed_limit_soft_and_hard_witness :
    processEmbed (configureSession ⟨20, false, 50, false, false⟩) (List.replicate 100 7) =
      ⟨1, 0, some (List.replicate 100 7)⟩ ∧
    processEmbed (configureSession ⟨20, false, 50, true, false⟩) (List.replicate 100 7) =
      ⟨0, 1, none⟩ :=
  embed_limit_soft_and_hard 50 (List.replicate 100 7) _ _ rfl rfl (by decide) (by decide)

/-! ### C3 -/

/-- C3: linking a single translation unit is the identity: `cc_link_progs`
on a one-element program array returns that program unchanged (and reports
no error). -/
theorem cc_link_progs_single (p : List Obj) :
    cc_link_progs [p] = .ok ⟨p, p, []⟩ := by
  simp [cc_link_progs]

/-! ### C1 counterexample -/

/-- C1 counterexample: with a declaration of `x` followed by a definition of
`y` in the first unit and a definition of `x` in the second, `cc_link_progs`
returns normally with no diagnostic, yet the merged list is `y, x` while the
first-seen order of names is `x, y`: the later definition of `x`, not its
first-seen declaration, is the canonical entry, and it sits at its own
position. -/
theorem cc_link_progs_first_seen_cex :
    (cc_link_progs [[⟨"x", false, false, false, none, 0⟩, ⟨"y", true, false, false, none, 1⟩],
                    [⟨"x", true, false, false, none, 2⟩]]).toOption.map
        (fun r => (r.errs, r.merged.map Obj.name)) = some ([], ["y", "x"]) ∧
    firstSeenNames ([[⟨"x", false, false, false, none, 0⟩, ⟨"y", true, false, false, none, 1⟩],
                     [⟨"x", true, false, false, none, 2⟩]] : List (List Obj)).flatten =
      ["x", "y"] ∧
    (["y", "x"] : List String) ≠ ["x", "y"] := by
  decide

/-! ### Helper lemmas: hashmap, store, property copy -/

theorem hmGet_hmPut_self (m : SymMap) (k : String) (v : Nat) :
    hmGet (hmPut m k v) k = some v := by
  induction m with
  | nil => simp [hmPut, hmGet]
  | cons e rest ih =>
    by_cases h : e.1 = k
    · simp [hmPut, hmGet, h]
    · simp [hmPut, hmGet, h, ih]

theorem hmGet_hmPut_ne (m : SymMap) (k k2 : String) (v : Nat) (h : k2 ≠ k) :
    hmGet (hmPut m k v) k2 = hmGet m k2 := by
  have hne : ¬ k = k2 := fun hh => h hh.symm
  induction m with
  | nil => simp [hmPut, hmGet, hne]
  | cons e rest ih =>
    by_cases he : e.1 = k
    · simp [hmPut, hmGet, he, hne]
    · by_cases he2 : e.1 = k2
      · simp [hmPut, hmGet, he, he2, hne, h]
      · simp [hmPut, hmGet, he, he2, ih]

theorem hmGet_hmPut_isSome (m : SymMap) (k k2 : String) (v : Nat)
    (h : (hmGet m k2).isSome = true) : (hmGet (hmPut m k v) k2).isSome = true := by
  by_cases hk : k2 = k
  · subst hk; rw [hmGet_hmPut_self]; rfl
  · rw [hmGet_hmPut_ne m k k2 v hk]; exact h

theorem updStore_self (f : Nat → Obj) (j : Nat) (v : Obj) : updStore f j v j = v := by
  simp [updStore]

theorem updStore_ne (f : Nat → Obj) (j : Nat) (v : Obj) (i : Nat) (h : i ≠ j) :
    updStore f j v i = f i := by
  simp [updStore, h]

theorem copyDefProps_name (a b : Obj) : (copyDefProps a b).name = a.name := rfl

theorem copyDefProps_ty (a b : Obj) : (copyDefProps a b).ty = b.ty := rfl

/-! ### Helper lemmas: the first pass of `cc_link_progs` -/

theorem pass1Step_none (st : P1) (j : Nat)
    (h : hmGet st.map ((st.store j).name) = none) :
    pass1Step st j = ⟨st.store, hmPut st.map ((st.store j).name) j, st.errs⟩ := by
  simp [pass1Step, h]

theorem pass1Step_both (st : P1) (j k : Nat)
    (h : hmGet st.map ((st.store j).name) = some k)
    (h1 : objIsDef (st.store j) = true) (h2 : objIsDef (st.store k) = true) :
    pass1Step st j = ⟨st.store, st.map,
      st.errs ++ ["redefinition of \x27" ++ (st.store j).name ++ "\x27"]⟩ := by
  simp [pass1Step, h, h1, h2]

theorem pass1Step_objdef (st : P1) (j k : Nat)
    (h : hmGet st.map ((st.store j).name) = some k)
    (h1 : objIsDef (st.store j) = true) (h2 : objIsDef (st.store k) = false) :
    pass1Step st j = ⟨updStore st.store k (copyDefProps (st.store k) (st.store j)),
      hmPut st.map ((st.store j).name) j, st.errs⟩ := by
  simp [pass1Step, h, h1, h2]

theorem pass1Step_exdef (st : P1) (j k : Nat)
    (h : hmGet st.map ((st.store j).name) = some k)
    (h1 : objIsDef (st.store j) = false) (h2 : objIsDef (st.store k) = true) :
    pass1Step st j = ⟨updStore st.store j (copyDefProps (st.store j) (st.store k)),
      st.map, st.errs⟩ := by
  simp [pass1Step, h, h1, h2]

theorem pass1Step_neither (st : P1) (j k : Nat)
    (h : hmGet st.map ((st.store j).name) = some k)
    (h1 : objIsDef (st.store j) = false) (h2 : objIsDef (st.store k) = false) :
    pass1Step st j = st := by
  simp [pass1Step, h, h1, h2]

theorem Inv1_congr {s0f : Nat → Obj} {d1 d2 : Nat → Prop} {st : P1}
    (h : ∀ i, d1 i ↔ d2 i) (hI : Inv1 s0f d1 st) : Inv1 s0f d2 st :=
  ⟨fun nm k hk => ⟨(h k).mp (hI.m1 nm k hk).1, (hI.m1 nm k hk).2⟩,
   fun j hj => hI.m2 j ((h j).mpr hj),
   fun j hj => hI.unproc j (fun hd => hj ((h j).mp hd)),
   hI.targ,
   fun j hj => hI.defs j ((h j).mpr hj),
   hI.nms⟩

/-- The empty first-pass state satisfies the invariant with nothing
processed. -/
theorem linkInit_inv (progs : List (List Obj)) :
    Inv1 (fun j => progs.flatten.getD j default) (fun _ => False) (linkInit progs) := by
  refine ⟨?_, ?_, ?_, ?_, ?_, ?_⟩
  · intro nm k hk; simp [linkInit, hmGet] at hk
  · intro j hj; cases hj
  · intro j _; rfl
  · intro nm k hk; simp [linkInit, hmGet] at hk
  · intro j hj; cases hj
  · intro j; rfl

/-- One step of the first pass preserves the invariant, marking the
processed position as done. -/
theorem pass1Step_inv (s0f : Nat → Obj) (done : Nat → Prop) (st : P1) (j : Nat)
    (hI : Inv1 s0f done st) (hj : ¬ done j) :
    Inv1 s0f (fun i => done i ∨ i = j) (pass1Step st j) := by
  have hsj : st.store j = s0f j := hI.unproc j hj
  have hnmj : (st.store j).name = (s0f j).name := hI.nms j
  cases hg : hmGet st.map ((st.store j).name) with
  | none =>
    rw [pass1Step_none st j hg]
    refine ⟨?_, ?_, ?_, ?_, ?_, hI.nms⟩
    · intro nm k hk
      by_cases hn : nm = (st.store j).name
      · subst hn
        rw [hmGet_hmPut_self] at hk
        cases hk
        exact ⟨Or.inr rfl, hnmj.symm⟩
      · rw [hmGet_hmPut_ne _ _ _ _ hn] at hk
        exact ⟨Or.inl (hI.m1 _ _ hk).1, (hI.m1 _ _ hk).2⟩
    · intro i hi
      rcases hi with hd | he
      · exact hmGet_hmPut_isSome _ _ _ _ (hI.m2 i hd)
      · subst he
        rw [← hnmj, hmGet_hmPut_self]
        rfl
    · intro i hi
      push_neg at hi
      exact hI.unproc i hi.1
    · intro nm k hk
      by_cases hn : nm = (st.store j).name
      · subst hn
        rw [hmGet_hmPut_self] at hk
        cases hk
        exact hsj
      · rw [hmGet_hmPut_ne _ _ _ _ hn] at hk
        exact hI.targ _ _ hk
    · intro i hi hdef
      rcases hi with hd | he
      · rcases hI.defs i hd hdef with ⟨k0, hk0, hd0⟩
        by_cases hn : (s0f i).name = (st.store j).name
        · rw [hn, hg] at hk0
          cases hk0
        · exact ⟨k0, by rw [hmGet_hmPut_ne _ _ _ _ hn]; exact hk0, hd0⟩
      · subst he
        refine ⟨i, ?_, hdef⟩
        rw [← hnmj, hmGet_hmPut_self]
  | some k =>
    have hm1 := hI.m1 _ _ hg
    have hsk : st.store k = s0f k := hI.targ _ _ hg
    have hkj : k ≠ j := fun he => hj (he ▸ hm1.1)
    cases hdj : objIsDef (st.store j) with
    | false =>
      cases hdk : objIsDef (st.store k) with
      | false =>
        rw [pass1Step_neither st j k hg hdj hdk]
        refine ⟨fun nm k2 hk2 => ⟨Or.inl (hI.m1 _ _ hk2).1, (hI.m1 _ _ hk2).2⟩,
          ?_, ?_, hI.targ, ?_, hI.nms⟩
        · intro i hi
          rcases hi with hd | he
          · exact hI.m2 i hd
          · subst he; rw [← hnmj, hg]; rfl
        · intro i hi
          push_neg at hi
          exact hI.unproc i hi.1
        · intro i hi hdef
          rcases hi with hd | he
          · exact hI.defs i hd hdef
          · subst he
            rw [hsj] at hdj
            rw [hdef] at hdj
            cases hdj
      | true =>
        rw [pass1Step_exdef st j k hg hdj hdk]
        refine ⟨fun nm k2 hk2 => ⟨Or.inl (hI.m1 _ _ hk2).1, (hI.m1 _ _ hk2).2⟩,
          ?_, ?_, ?_, ?_, ?_⟩
        · intro i hi
          rcases hi with hd | he
          · exact hI.m2 i hd
          · subst he; rw [← hnmj, hg]; rfl
        · intro i hi
          push_neg at hi
          dsimp only
          rw [updStore_ne _ _ _ _ hi.2]
          exact hI.unproc i hi.1
        · intro nm k2 hk2
          have hd2 : done k2 := (hI.m1 _ _ hk2).1
          have : k2 ≠ j := fun he => hj (he ▸ hd2)
          dsimp only
          rw [updStore_ne _ _ _ _ this]
          exact hI.targ _ _ hk2
        · intro i hi hdef
          rcases hi with hd | he
          · exact hI.defs i hd hdef
          · subst he
            rw [hsj] at hdj
            rw [hdef] at hdj
            cases hdj
        · intro i
          dsimp only
          by_cases hij : i = j
          · subst hij
            rw [updStore_self, copyDefProps_name]
            exact hI.nms i
          · rw [updStore_ne _ _ _ _ hij]
            exact hI.nms i
    | true =>
      cases hdk : objIsDef (st.store k) with
      | true =>
        rw [pass1Step_both st j k hg hdj hdk]
        refine ⟨fun nm k2 hk2 => ⟨Or.inl (hI.m1 _ _ hk2).1, (hI.m1 _ _ hk2).2⟩,
          ?_, ?_, hI.targ, ?_, hI.nms⟩
        · intro i hi
          rcases hi with hd | he
          · exact hI.m2 i hd
          · subst he; rw [← hnmj, hg]; rfl
        · intro i hi
          push_neg at hi
          exact hI.unproc i hi.1
        · intro i hi hdef
          rcases hi with hd | he
          · exact hI.defs i hd hdef
          · subst he
            refine ⟨k, by rw [← hnmj]; exact hg, ?_⟩
            rw [← hsk]
            exact hdk
      | false =>
        rw [pass1Step_objdef st j k hg hdj hdk]
        refine ⟨?_, ?_, ?_, ?_, ?_, ?_⟩
        · intro nm k2 hk2
          by_cases hn : nm = (st.store j).name
          · subst hn
            rw [hmGet_hmPut_self] at hk2
            cases hk2
            exact ⟨Or.inr rfl, hnmj.symm⟩
          · rw [hmGet_hmPut_ne _ _ _ _ hn] at hk2
            exact ⟨Or.inl (hI.m1 _ _ hk2).1, (hI.m1 _ _ hk2).2⟩
        · intro i hi
          rcases hi with hd | he
          · exact hmGet_hmPut_isSome _ _ _ _ (hI.m2 i hd)
          · subst he
            rw [← hnmj, hmGet_hmPut_self]
            rfl
        · intro i hi
          push_neg at hi
          have hik : i ≠ k := fun he => hi.1 (he ▸ hm1.1)
          dsimp only
          rw [updStore_ne _ _ _ _ hik]
          exact hI.unproc i hi.1
        · intro nm k2 hk2
          by_cases hn : nm = (st.store j).name
          · subst hn
            rw [hmGet_hmPut_self] at hk2
            cases hk2
            dsimp only
            rw [updStore_ne _ _ _ _ hkj.symm]
            exact hsj
          · rw [hmGet_hmPut_ne _ _ _ _ hn] at hk2
            have hk2k : k2 ≠ k := by
              intro he
              subst he
              exact hn ((hI.m1 _ _ hk2).2.symm.trans (hm1.2 ▸ rfl))
            dsimp only
            rw [updStore_ne _ _ _ _ hk2k]
            exact hI.targ _ _ hk2
        · intro i hi hdef
          rcases hi with hd | he
          · by_cases hn : (s0f i).name = (st.store j).name
            · rcases hI.defs i hd hdef with ⟨k0, hk0, hd0⟩
              rw [hn, hg] at hk0
              cases hk0
              rw [← hsk, hdk] at hd0
              cases hd0
            · rcases hI.defs i hd hdef with ⟨k0, hk0, hd0⟩
              exact ⟨k0, by rw [hmGet_hmPut_ne _ _ _ _ hn]; exact hk0, hd0⟩
          · subst he
            refine ⟨i, ?_, hdef⟩
            rw [← hnmj, hmGet_hmPut_self]
        · intro i
          dsimp only
          by_cases hik : i = k
          · subst hik
            rw [updStore_self, copyDefProps_name]
            exact hI.nms i
          · rw [updStore_ne _ _ _ _ hik]
            exact hI.nms i

/-- Running the first pass over fresh positions preserves the invariant and
marks them all done. -/
theorem runPass1_inv (s0f : Nat → Obj) : ∀ (js : List Nat) (done : Nat → Prop) (st : P1),
    Inv1 s0f done st → js.Nodup → (∀ i ∈ js, ¬ done i) →
    Inv1 s0f (fun i => done i ∨ i ∈ js) (runPass1 st js) := by
  intro js
  induction js with
  | nil =>
    intro done st hI _ _
    exact Inv1_congr (fun i => by simp) hI
  | cons j rest ih =>
    intro done st hI hnd hfresh
    have hj : ¬ done j := hfresh j (List.mem_cons_self _ _)
    have hndr := List.nodup_cons.mp hnd
    have step := pass1Step_inv s0f done st j hI hj
    have hfresh2 : ∀ i ∈ rest, ¬ (done i ∨ i = j) := by
      intro i hi
      rintro (hd | he)
      · exact hfresh i (List.mem_cons_of_mem _ hi) hd
      · exact hndr.1 (he ▸ hi)
    have result := ih (fun i => done i ∨ i = j) (pass1Step st j) step hndr.2 hfresh2
    refine Inv1_congr (fun i => ?_) result
    simp only [List.mem_cons]
    tauto

theorem pass1Step_errs (st : P1) (j : Nat) :
    ∃ l, (pass1Step st j).errs = st.errs ++ l := by
  cases hg : hmGet st.map ((st.store j).name) with
  | none => exact ⟨[], by rw [pass1Step_none st j hg]; simp⟩
  | some k =>
    cases hdj : objIsDef (st.store j) with
    | false =>
      cases hdk : objIsDef (st.store k) with
      | false => exact ⟨[], by rw [pass1Step_neither st j k hg hdj hdk]; simp⟩
      | true => exact ⟨[], by rw [pass1Step_exdef st j k hg hdj hdk]; simp⟩
    | true =>
      cases hdk : objIsDef (st.store k) with
      | false => exact ⟨[], by rw [pass1Step_objdef st j k hg hdj hdk]; simp⟩
      | true =>
        exact ⟨["redefinition of \x27" ++ (st.store j).name ++ "\x27"],
          by rw [pass1Step_both st j k hg hdj hdk]⟩

theorem runPass1_errs : ∀ (js : List Nat) (st : P1),
    ∃ l, (runPass1 st js).errs = st.errs ++ l := by
  intro js
  induction js with
  | nil => intro st; exact ⟨[], by simp [runPass1]⟩
  | cons j rest ih =>
    intro st
    rcases pass1Step_errs st j with ⟨l1, e1⟩
    rcases ih (pass1Step st j) with ⟨l2, e2⟩
    exact ⟨l1 ++ l2, by rw [runPass1, e2, e1, List.append_assoc]⟩

theorem runPass1_errs_mem (js : List Nat) (st : P1) (e : String) (h : e ∈ st.errs) :
    e ∈ (runPass1 st js).errs := by
  rcases runPass1_errs js st with ⟨l, hl⟩
  rw [hl]
  exact List.mem_append_left _ h

/-- When the object being processed is a definition and some already
processed object of the same name was a definition, the step records the
redefinition error. -/
theorem pass1Step_emits (s0f : Nat → Obj) (done : Nat → Prop) (st : P1) (j : Nat)
    (hI : Inv1 s0f done st) (hj : ¬ done j)
    (hdj : objIsDef (s0f j) = true)
    (k0 : Nat) (hk0 : done k0) (hnm : (s0f k0).name = (s0f j).name)
    (hdk0 : objIsDef (s0f k0) = true) :
    ("redefinition of \x27" ++ (s0f j).name ++ "\x27") ∈ (pass1Step st j).errs := by
  rcases hI.defs k0 hk0 hdk0 with ⟨k, hk, hdk⟩
  rw [hnm] at hk
  have hsk : st.store k = s0f k := hI.targ _ _ hk
  have hnmj : (st.store j).name = (s0f j).name := hI.nms j
  have hsj : st.store j = s0f j := hI.unproc j hj
  have hg : hmGet st.map ((st.store j).name) = some k := by rw [hnmj]; exact hk
  have h1 : objIsDef (st.store j) = true := by rw [hsj]; exact hdj
  have h2 : objIsDef (st.store k) = true := by rw [hsk]; exact hdk
  rw [pass1Step_both st j k hg h1 h2]
  rw [hnmj]
  exact List.mem_append_right _ (List.mem_singleton.mpr rfl)

/-- Two definitions of the same name among the processed-or-pending
positions always produce a redefinition error for that name. -/
theorem runPass1_detects (s0f : Nat → Obj) : ∀ (js : List Nat) (done : Nat → Prop) (st : P1),
    Inv1 s0f done st → js.Nodup → (∀ i ∈ js, ¬ done i) →
    ∀ p1 p2, p1 ≠ p2 → (done p1 ∨ p1 ∈ js) → p2 ∈ js →
    (s0f p1).name = (s0f p2).name →
    objIsDef (s0f p1) = true → objIsDef (s0f p2) = true →
    ("redefinition of \x27" ++ (s0f p2).name ++ "\x27") ∈ (runPass1 st js).errs := by
  intro js
  induction js with
  | nil =>
    intro done st _ _ _ p1 p2 _ _ h2 _ _ _
    cases h2
  | cons j rest ih =>
    intro done st hI hnd hfresh p1 p2 hne hp1 hp2 hnm hd1 hd2
    have hj : ¬ done j := hfresh j (List.mem_cons_self _ _)
    have hndr := List.nodup_cons.mp hnd
    have step := pass1Step_inv s0f done st j hI hj
    have hfresh2 : ∀ i ∈ rest, ¬ (done i ∨ i = j) := by
      intro i hi
      rintro (hd | he)
      · exact hfresh i (List.mem_cons_of_mem _ hi) hd
      · exact hndr.1 (he ▸ hi)
    rw [runPass1]
    rcases List.mem_cons.mp hp2 with hp2j | hp2r
    · subst hp2j
      rcases hp1 with hd | hp1mem
      · exact runPass1_errs_mem rest _ _
          (pass1Step_emits s0f done st p2 hI hj hd2 p1 hd hnm hd1)
      · rcases List.mem_cons.mp hp1mem with h1j | h1r
        · exact absurd h1j hne
        · have := ih (fun i => done i ∨ i = p2) (pass1Step st p2) step hndr.2 hfresh2
            p2 p1 (Ne.symm hne) (Or.inl (Or.inr rfl)) h1r hnm.symm hd2 hd1
          exact hnm ▸ this
    · have hp1b : (done p1 ∨ p1 = j) ∨ p1 ∈ rest := by
        rcases hp1 with hd | hmem
        · exact Or.inl (Or.inl hd)
        · rcases List.mem_cons.mp hmem with h1j | h1r
          · exact Or.inl (Or.inr h1j)
          · exact Or.inr h1r
      exact ih (fun i => done i ∨ i = j) (pass1Step st j) step hndr.2 hfresh2
        p1 p2 hne hp1b hp2r hnm hd1 hd2

/-! ### Helper lemmas: the second pass of `cc_link_progs` -/

theorem pass2Step_none (m : SymMap) (st : P2) (j : Nat)
    (h : hmGet m ((st.store j).name) = none) : pass2Step m st j = st := by
  simp [pass2Step, h]

theorem pass2Step_self (m : SymMap) (st : P2) (j : Nat)
    (h : hmGet m ((st.store j).name) = some j) :
    pass2Step m st j = ⟨st.store, st.merged ++ [st.store j]⟩ := by
  simp [pass2Step, h]

theorem pass2Step_other (m : SymMap) (st : P2) (j k : Nat)
    (h : hmGet m ((st.store j).name) = some k) (hne : ¬ k = j) :
    pass2Step m st j =
      ⟨updStore st.store j (copyDefProps (st.store j) (st.store k)), st.merged⟩ := by
  simp [pass2Step, h, hne]

/-- The second pass, over distinct positions with a name-coherent map:
the invariant is preserved; the merged list collects exactly the canonical
objects (those the map sends their own name to) in position order, untouched
from the first-pass store; positions outside the run are untouched; and every
non-canonical position ends up carrying the ty of its canonical object. -/
theorem runPass2_spec (m : SymMap) (s1f : Nat → Obj)
    (mCoh : ∀ nm k, hmGet m nm = some k → (s1f k).name = nm) :
    ∀ (js : List Nat) (st : P2), Inv2 m s1f st → js.Nodup →
    Inv2 m s1f (runPass2 m st js) ∧
    (runPass2 m st js).merged = st.merged ++ js.filterMap (fun j =>
      if hmGet m ((s1f j).name) = some j then some (s1f j) else none) ∧
    (∀ i, i ∉ js → (runPass2 m st js).store i = st.store i) ∧
    (∀ j ∈ js, ∀ k, hmGet m ((s1f j).name) = some k → ¬ k = j →
      ((runPass2 m st js).store j).ty = (s1f k).ty) := by
  intro js
  induction js with
  | nil =>
    intro st hI _
    exact ⟨hI, by simp [runPass2], fun i _ => rfl, by simp⟩
  | cons j rest ih =>
    intro st hI hnd
    have hnms : (st.store j).name = (s1f j).name := hI.nms j
    have hndr := List.nodup_cons.mp hnd
    rw [runPass2]
    cases hg : hmGet m ((s1f j).name) with
    | none =>
      have hstep : pass2Step m st j = st := pass2Step_none m st j (by rw [hnms]; exact hg)
      rw [hstep]
      rcases ih st hI hndr.2 with ⟨a, b, c, d⟩
      refine ⟨a, ?_, ?_, ?_⟩
      · rw [b]
        simp [List.filterMap_cons, hg]
      · intro i hi
        exact c i (fun hm2 => hi (List.mem_cons_of_mem _ hm2))
      · intro j2 hj2 k hk hkne
        rcases List.mem_cons.mp hj2 with he | hr
        · subst he
          rw [hg] at hk
          cases hk
        · exact d j2 hr k hk hkne
    | some k =>
      by_cases hkj : k = j
      · subst hkj
        have hsj : st.store k = s1f k := hI.targ k hg
        have hstep : pass2Step m st k = ⟨st.store, st.merged ++ [st.store k]⟩ :=
          pass2Step_self m st k (by rw [hnms]; exact hg)
        rw [hstep]
        have hI2 : Inv2 m s1f ⟨st.store, st.merged ++ [st.store k]⟩ := ⟨hI.nms, hI.targ⟩
        rcases ih _ hI2 hndr.2 with ⟨a, b, c, d⟩
        refine ⟨a, ?_, ?_, ?_⟩
        · rw [b]
          dsimp only
          rw [hsj]
          simp [List.filterMap_cons, hg, List.append_assoc]
        · intro i hi
          rw [c i (fun hm2 => hi (List.mem_cons_of_mem _ hm2))]
        · intro j2 hj2 k2 hk2 hkne
          rcases List.mem_cons.mp hj2 with he | hr
          · subst he
            rw [hg] at hk2
            cases hk2
            exact absurd rfl hkne
          · exact d j2 hr k2 hk2 hkne
      · have hcoh : (s1f k).name = (s1f j).name := mCoh _ _ hg
        have hsk : st.store k = s1f k := hI.targ k (by rw [hcoh]; exact hg)
        have hstep := pass2Step_other m st j k (by rw [hnms]; exact hg) hkj
        rw [hstep]
        have hI2 : Inv2 m s1f
            ⟨updStore st.store j (copyDefProps (st.store j) (st.store k)), st.merged⟩ := by
          constructor
          · intro i
            dsimp only
            by_cases hij : i = j
            · subst hij
              rw [updStore_self, copyDefProps_name]
              exact hI.nms i
            · rw [updStore_ne _ _ _ _ hij]
              exact hI.nms i
          · intro k2 hk2
            dsimp only
            have hk2j : k2 ≠ j := by
              intro he
              subst he
              rw [hg] at hk2
              cases hk2
              exact hkj rfl
            rw [updStore_ne _ _ _ _ hk2j]
            exact hI.targ k2 hk2
        rcases ih _ hI2 hndr.2 with ⟨a, b, c, d⟩
        refine ⟨a, ?_, ?_, ?_⟩
        · rw [b]
          dsimp only
          simp [List.filterMap_cons, hg, hkj]
        · intro i hi
          have hij : i ≠ j := fun he => hi (he ▸ List.mem_cons_self _ _)
          rw [c i (fun hm2 => hi (List.mem_cons_of_mem _ hm2))]
          dsimp only
          rw [updStore_ne _ _ _ _ hij]
        · intro j2 hj2 k2 hk2 hkne
          rcases List.mem_cons.mp hj2 with he | hr
          · subst he
            rw [c j2 hndr.1]
            dsimp only
            rw [updStore_self, copyDefProps_ty]
            rw [hg] at hk2
            cases hk2
            rw [hsk]
          · exact d j2 hr k2 hk2 hkne

/-! ### Helper lemmas: `cc_link_progs` as a whole -/

/-- Unfolding `cc_link_progs` on two or more units. -/
theorem cc_link_progs_eq (progs : List (List Obj)) (h2 : 2 ≤ progs.length) :
    cc_link_progs progs = .ok ⟨(linkP2 progs).merged,
      (List.range progs.flatten.length).map (linkP2 progs).store,
      (linkP1 progs).errs⟩ := by
  have h0 : ¬ progs.length = 0 := by omega
  have h1 : ¬ progs.length = 1 := by omega
  simp [cc_link_progs, h0, h1]

/-- The first-pass invariant holds at the end of the first pass, with every
position of the concatenated input processed. -/
theorem link_inv1_final (progs : List (List Obj)) :
    Inv1 (fun j => progs.flatten.getD j default)
      (fun i => i < progs.flatten.length) (linkP1 progs) := by
  have h := runPass1_inv (fun j => progs.flatten.getD j default)
    (List.range progs.flatten.length) (fun _ => False) (linkInit progs)
    (linkInit_inv progs) (List.nodup_range _) (fun _ _ => not_false)
  exact Inv1_congr (fun i => by simp [List.mem_range]) h

/-- The final symbol map is name-coherent over the first-pass store. -/
theorem link_mCoh (progs : List (List Obj)) :
    ∀ nm k, hmGet (linkP1 progs).map nm = some k →
      ((linkP1 progs).store k).name = nm := by
  intro nm k hk
  rw [(link_inv1_final progs).nms k]
  exact ((link_inv1_final progs).m1 nm k hk).2

/-- The second-pass results, instantiated for `cc_link_progs`. -/
theorem linkP2_spec (progs : List (List Obj)) :
    Inv2 (linkP1 progs).map (linkP1 progs).store (linkP2 progs) ∧
    (linkP2 progs).merged = (List.range progs.flatten.length).filterMap (fun j =>
      if hmGet (linkP1 progs).map (((linkP1 progs).store j).name) = some j
      then some ((linkP1 progs).store j) else none) ∧
    (∀ j, j < progs.flatten.length → ∀ k,
      hmGet (linkP1 progs).map (((linkP1 progs).store j).name) = some k → ¬ k = j →
      ((linkP2 progs).store j).ty = ((linkP1 progs).store k).ty) := by
  have h := runPass2_spec (linkP1 progs).map (linkP1 progs).store (link_mCoh progs)
    (List.range progs.flatten.length) ⟨(linkP1 progs).store, []⟩
    ⟨fun _ => rfl, fun _ _ => rfl⟩ (List.nodup_range _)
  rcases h with ⟨a, b, _, d⟩
  refine ⟨a, ?_, ?_⟩
  · rw [List.nil_append] at b
    exact b
  · intro j hj k hk hkj
    exact d j (List.mem_range.mpr hj) k hk hkj

/-! ### Helper lemmas: lists and indices -/

theorem range_map_getD : ∀ l : List Obj,
    (List.range l.length).map (fun j => l.getD j default) = l := by
  intro l
  induction l with
  | nil => rfl
  | cons a tl ih =>
    rw [List.length_cons, List.range_succ_eq_map, List.map_cons, List.map_map]
    have he : ((fun j => (a :: tl).getD j default) ∘ Nat.succ) =
        (fun j => tl.getD j default) := rfl
    rw [he, ih, List.getD_cons_zero]

theorem getD_range_map (f : Nat → Obj) (n j : Nat) (hj : j < n) :
    ((List.range n).map f).getD j default = f j := by
  rw [List.getD_eq_getElem?_getD, List.getElem?_map, List.getElem?_range hj]
  rfl

theorem getD_mem (l : List Obj) (j : Nat) (hj : j < l.length) :
    l.getD j default ∈ l := by
  rw [List.getD_eq_getElem?_getD, List.getElem?_eq_getElem hj]
  exact List.getElem_mem hj

theorem mem_index (l : List Obj) (o : Obj) (h : o ∈ l) :
    ∃ j, j < l.length ∧ l.getD j default = o := by
  rcases List.mem_iff_getElem.mp h with ⟨j, hj, hval⟩
  exact ⟨j, hj, by rw [List.getD_eq_getElem?_getD, List.getElem?_eq_getElem hj]; exact hval⟩

theorem filterMap_if_sublist (p : Nat → Prop) [DecidablePred p] (f g : Nat → Obj) :
    ∀ js : List Nat, (∀ j ∈ js, p j → f j = g j) →
    List.Sublist (js.filterMap (fun j => if p j then some (f j) else none)) (js.map g) := by
  intro js
  induction js with
  | nil => intro _; simp
  | cons j rest ih =>
    intro h
    by_cases hp : p j
    · have hfg : f j = g j := h j (List.mem_cons_self _ _) hp
      simp only [List.filterMap_cons, if_pos hp, List.map_cons, hfg]
      exact List.Sublist.cons₂ _ (ih (fun i hi hpi => h i (List.mem_cons_of_mem _ hi) hpi))
    · simp only [List.filterMap_cons, if_neg hp, List.map_cons]
      exact List.Sublist.cons _ (ih (fun i hi hpi => h i (List.mem_cons_of_mem _ hi) hpi))

theorem filterMap_if_nodup (p : Nat → Prop) [DecidablePred p] (nmf : Nat → String)
    (hinj : ∀ j1 j2, p j1 → p j2 → nmf j1 = nmf j2 → j1 = j2) :
    ∀ js : List Nat, js.Nodup →
    (js.filterMap (fun j => if p j then some (nmf j) else none)).Nodup := by
  intro js
  induction js with
  | nil => intro _; simp
  | cons j rest ih =>
    intro hnd
    have hndr := List.nodup_cons.mp hnd
    by_cases hp : p j
    · simp only [List.filterMap_cons, if_pos hp]
      refine List.nodup_cons.mpr ⟨?_, ih hndr.2⟩
      intro hmem
      rcases List.mem_filterMap.mp hmem with ⟨j2, hj2, hfj2⟩
      by_cases hp2 : p j2
      · rw [if_pos hp2] at hfj2
        have heq : nmf j2 = nmf j := by injection hfj2
        have : j2 = j := hinj j2 j hp2 hp heq
        exact hndr.1 (this ▸ hj2)
      · rw [if_neg hp2] at hfj2
        cases hfj2
    · simp only [List.filterMap_cons, if_neg hp]
      exact ih hndr.2

theorem mem_flatten_getD : ∀ (progs : List (List Obj)) (i : Nat) (o : Obj),
    o ∈ progs.getD i [] →
    ∃ p, p < progs.flatten.length ∧ progs.flatten.getD p default = o := by
  intro progs
  induction progs with
  | nil =>
    intro i o ho
    rw [List.getD] at ho
    simp at ho
  | cons l rest ih =>
    intro i o ho
    cases i with
    | zero =>
      have ho2 : o ∈ l := ho
      rcases mem_index l o ho2 with ⟨q, hq, hval⟩
      refine ⟨q, ?_, ?_⟩
      · rw [List.flatten_cons, List.length_append]
        omega
      · rw [List.flatten_cons, List.getD_append _ _ _ _ hq]
        exact hval
    | succ i2 =>
      have ho2 : o ∈ rest.getD i2 [] := ho
      rcases ih i2 o ho2 with ⟨p, hp, hval⟩
      refine ⟨l.length + p, ?_, ?_⟩
      · rw [List.flatten_cons, List.length_append]
        omega
      · rw [List.flatten_cons, List.getD_append_right _ _ _ _ (by omega)]
        simpa using hval

theorem mem_flatten_two : ∀ (progs : List (List Obj)) (i1 i2 : Nat) (o1 o2 : Obj),
    i1 < i2 → o1 ∈ progs.getD i1 [] → o2 ∈ progs.getD i2 [] →
    ∃ p1 p2, p1 < p2 ∧ p2 < progs.flatten.length ∧
      progs.flatten.getD p1 default = o1 ∧ progs.flatten.getD p2 default = o2 := by
  intro progs
  induction progs with
  | nil =>
    intro i1 i2 o1 o2 _ h1 _
    rw [List.getD] at h1
    simp at h1
  | cons l rest ih =>
    intro i1 i2 o1 o2 hlt h1 h2
    cases i1 with
    | zero =>
      cases i2 with
      | zero => omega
      | succ i2b =>
        rcases mem_index l o1 h1 with ⟨q1, hq1, hv1⟩
        rcases mem_flatten_getD rest i2b o2 h2 with ⟨p2b, hp2b, hv2⟩
        refine ⟨q1, l.length + p2b, by omega, ?_, ?_, ?_⟩
        · rw [List.flatten_cons, List.length_append]
          omega
        · rw [List.flatten_cons, List.getD_append _ _ _ _ hq1]
          exact hv1
        · rw [List.flatten_cons, List.getD_append_right _ _ _ _ (by omega)]
          simpa using hv2
    | succ i1b =>
      cases i2 with
      | zero => omega
      | succ i2b =>
        rcases ih i1b i2b o1 o2 (by omega) h1 h2 with ⟨p1, p2, hp12, hp2, hv1, hv2⟩
        refine ⟨l.length + p1, l.length + p2, by omega, ?_, ?_, ?_⟩
        · rw [List.flatten_cons, List.length_append]
          omega
        · rw [List.flatten_cons, List.getD_append_right _ _ _ _ (by omega)]
          simpa using hv1
        · rw [List.flatten_cons, List.getD_append_right _ _ _ _ (by omega)]
          simpa using hv2

/-! ### C1 (amended) -/

/-- C1 (amended): on two or more units, the merged list `cc_link_progs`
returns never contains two entries with the same name, covers exactly the
names occurring in the inputs, and lists the canonical objects in the order
they occur in the concatenated (post-run) input lists — which coincides with
first-seen name order only when each name's canonical object is its first
occurrence (see the counterexample for the general case). -/
theorem cc_link_progs_merged_sound (progs : List (List Obj)) (r : LinkResult)
    (h : cc_link_progs progs = .ok r) (h2 : 2 ≤ progs.length) :
    (r.merged.map Obj.name).Nodup ∧
    List.Sublist r.merged r.store ∧
    r.store.map Obj.name = progs.flatten.map Obj.name ∧
    (r.merged.map Obj.name).toFinset = (progs.flatten.map Obj.name).toFinset := by
  rw [cc_link_progs_eq progs h2] at h
  injection h with hh
  subst hh
  have I1 := link_inv1_final progs
  obtain ⟨I2, hmerged, hP4⟩ := linkP2_spec progs
  have hnames2 : ∀ j, (((linkP2 progs).store j)).name =
      ((fun i => progs.flatten.getD i default) j).name := by
    intro j
    rw [I2.nms j, I1.nms j]
  have hstore : ((List.range progs.flatten.length).map (linkP2 progs).store).map Obj.name
      = progs.flatten.map Obj.name := by
    rw [List.map_map]
    have h1 : (List.range progs.flatten.length).map (Obj.name ∘ (linkP2 progs).store) =
        (List.range progs.flatten.length).map
          (Obj.name ∘ (fun j => progs.flatten.getD j default)) := by
      apply List.map_congr_left
      intro j _
      exact hnames2 j
    rw [h1, ← List.map_map, range_map_getD]
  have hmergednames : (linkP2 progs).merged.map Obj.name =
      (List.range progs.flatten.length).filterMap (fun j =>
        if hmGet (linkP1 progs).map (((linkP1 progs).store j).name) = some j
        then some (((linkP1 progs).store j).name) else none) := by
    rw [hmerged, List.map_filterMap]
    congr 1
    funext j
    by_cases hp : hmGet (linkP1 progs).map (((linkP1 progs).store j).name) = some j
    · rw [if_pos hp, if_pos hp]
      rfl
    · rw [if_neg hp, if_neg hp]
      rfl
  refine ⟨?_, ?_, hstore, ?_⟩
  · rw [hmergednames]
    apply filterMap_if_nodup
      (fun j => hmGet (linkP1 progs).map (((linkP1 progs).store j).name) = some j)
      (fun j => ((linkP1 progs).store j).name)
    · intro j1 j2 hp1 hp2 heq
      rw [heq] at hp1
      rw [hp2] at hp1
      exact (Option.some_inj.mp hp1).symm
    · exact List.nodup_range _
  · rw [hmerged]
    apply filterMap_if_sublist
      (fun j => hmGet (linkP1 progs).map (((linkP1 progs).store j).name) = some j)
      (linkP1 progs).store (linkP2 progs).store
    intro j _ hp
    exact (I2.targ j hp).symm
  · apply Finset.ext
    intro a
    simp only [List.mem_toFinset]
    constructor
    · intro ha
      rw [hmergednames] at ha
      rcases List.mem_filterMap.mp ha with ⟨j, hjr, hj⟩
      by_cases hp : hmGet (linkP1 progs).map (((linkP1 progs).store j).name) = some j
      · rw [if_pos hp] at hj
        have hja : ((linkP1 progs).store j).name = a := by injection hj
        have hj2 : (progs.flatten.getD j default).name = a := by
          rw [← I1.nms j]
          exact hja
        apply List.mem_map.mpr
        exact ⟨progs.flatten.getD j default,
          getD_mem _ _ (List.mem_range.mp hjr), hj2⟩
      · rw [if_neg hp] at hj
        cases hj
    · intro ha
      rcases List.mem_map.mp ha with ⟨o, ho, hname⟩
      rcases mem_index progs.flatten o ho with ⟨j, hj, hval⟩
      have hm2 := I1.m2 j hj
      rcases Option.isSome_iff_exists.mp hm2 with ⟨k, hk⟩
      have hm1 := I1.m1 _ _ hk
      have hcan : hmGet (linkP1 progs).map (((linkP1 progs).store k).name) = some k := by
        rw [I1.nms k, hm1.2]
        exact hk
      rw [hmergednames]
      apply List.mem_filterMap.mpr
      refine ⟨k, List.mem_range.mpr hm1.1, ?_⟩
      rw [if_pos hcan, I1.nms k, hm1.2, hval, hname]

/-- C1 witness: the amended statement evaluated on two disjoint single-object
units. -/
theorem cc_link_progs_merged_sound_witness :
    (exResAB.merged.map Obj.name).Nodup ∧
    List.Sublist exResAB.merged exResAB.store ∧
    exResAB.store.map Obj.name = exProgsAB.flatten.map Obj.name ∧
    (exResAB.merged.map Obj.name).toFinset =
      (exProgsAB.flatten.map Obj.name).toFinset :=
  cc_link_progs_merged_sound exProgsAB exResAB rfl (by decide)

/-! ### C2 -/

/-- C2: on a run of `cc_link_progs` over two or more units, two independent
guarantees, each under its own hypotheses: (i) whenever two different units
both contain a definition of the same name, a "redefinition" error for that
name is among the collected diagnostics; (ii) whenever position `p` of the
concatenated inputs holds the only definition of its name (e.g. one unit
defines it and every other unit only declares it), that very definition
object is in the merged output, and any merged entry carrying its name is it
(the definition, not a declaration, is the canonical entry). -/
theorem cc_link_progs_def_handling (progs : List (List Obj)) (r : LinkResult)
    (h : cc_link_progs progs = .ok r) (h2 : 2 ≤ progs.length) :
    (∀ i1 i2 o1 o2, i1 ≠ i2 →
      o1 ∈ progs.getD i1 [] → o2 ∈ progs.getD i2 [] →
      o1.name = o2.name → objIsDef o1 = true → objIsDef o2 = true →
      ("redefinition of \x27" ++ o2.name ++ "\x27") ∈ r.errs) ∧
    (∀ p oM, p < progs.flatten.length →
      objIsDef (progs.flatten.getD p default) = true →
      (∀ q, q < progs.flatten.length →
        (progs.flatten.getD q default).name = (progs.flatten.getD p default).name →
        objIsDef (progs.flatten.getD q default) = true → q = p) →
      progs.flatten.getD p default ∈ r.merged ∧
      (oM ∈ r.merged → oM.name = (progs.flatten.getD p default).name →
        oM = progs.flatten.getD p default)) := by
  rw [cc_link_progs_eq progs h2] at h
  injection h with hh
  subst hh
  have I1 := link_inv1_final progs
  obtain ⟨I2, hmerged, hP4⟩ := linkP2_spec progs
  constructor
  · intro i1 i2 o1 o2 hne ho1 ho2 hnm hd1 hd2
    rcases hne.lt_or_lt with hlt | hlt
    · rcases mem_flatten_two progs i1 i2 o1 o2 hlt ho1 ho2 with ⟨p1, p2, hp12, hp2, hv1, hv2⟩
      have := runPass1_detects (fun j => progs.flatten.getD j default)
        (List.range progs.flatten.length) (fun _ => False) (linkInit progs)
        (linkInit_inv progs) (List.nodup_range _) (fun _ _ => not_false)
        p1 p2 (Nat.ne_of_lt hp12)
        (Or.inr (List.mem_range.mpr (Nat.lt_trans hp12 hp2)))
        (List.mem_range.mpr hp2)
        (by dsimp only; rw [hv1, hv2, hnm]) (by dsimp only; rw [hv1]; exact hd1)
        (by dsimp only; rw [hv2]; exact hd2)
      dsimp only at this
      rw [hv2] at this
      exact this
    · rcases mem_flatten_two progs i2 i1 o2 o1 hlt ho2 ho1 with ⟨p1, p2, hp12, hp2, hv1, hv2⟩
      have := runPass1_detects (fun j => progs.flatten.getD j default)
        (List.range progs.flatten.length) (fun _ => False) (linkInit progs)
        (linkInit_inv progs) (List.nodup_range _) (fun _ _ => not_false)
        p1 p2 (Nat.ne_of_lt hp12)
        (Or.inr (List.mem_range.mpr (Nat.lt_trans hp12 hp2)))
        (List.mem_range.mpr hp2)
        (by dsimp only; rw [hv1, hv2, hnm]) (by dsimp only; rw [hv1]; exact hd2)
        (by dsimp only; rw [hv2]; exact hd1)
      dsimp only at this
      rw [hv2, hnm] at this
      exact this
  · intro p oM hp hpd huni
    have hm2 := I1.m2 p hp
    rcases Option.isSome_iff_exists.mp hm2 with ⟨k, hk⟩
    have hm1 := I1.m1 _ _ hk
    rcases I1.defs p hp hpd with ⟨k0, hk0, hd0⟩
    have hk0k : k0 = k := by
      rw [hk] at hk0
      injection hk0 with hh2
      exact hh2.symm
    have hkp : k = p := huni k hm1.1 hm1.2 (hk0k ▸ hd0)
    have hkp2 : hmGet (linkP1 progs).map ((progs.flatten.getD p default).name) = some p :=
      hkp ▸ hk
    have hcan : hmGet (linkP1 progs).map (((linkP1 progs).store p).name) = some p := by
      rw [I1.nms p]
      exact hkp2
    have hS1p : (linkP1 progs).store p = progs.flatten.getD p default := I1.targ _ _ hkp2
    have hmemp : (linkP1 progs).store p ∈ (linkP2 progs).merged := by
      rw [hmerged]
      exact List.mem_filterMap.mpr ⟨p, List.mem_range.mpr hp, by rw [if_pos hcan]⟩
    refine ⟨by rw [← hS1p]; exact hmemp, ?_⟩
    intro hoM hoMn
    rw [hmerged] at hoM
    rcases List.mem_filterMap.mp hoM with ⟨j, hjr, hj⟩
    by_cases hpj : hmGet (linkP1 progs).map (((linkP1 progs).store j).name) = some j
    · rw [if_pos hpj] at hj
      have hjoM : (linkP1 progs).store j = oM := by injection hj
      have hjk : hmGet (linkP1 progs).map ((progs.flatten.getD p default).name) = some j := by
        rw [← hoMn, ← hjoM]
        exact hpj
      have hjp : j = p := by
        have h4 := hkp2
        rw [hjk] at h4
        exact Option.some_inj.mp h4
      rw [← hjoM, hjp, hS1p]
    · rw [if_neg hpj] at hj
      cases hj

/-- C2 witness: both units of `exProgs` define `x`, so part (i) yields the
collected redefinition error; the definition of `y` in unit 1 is unique
(unit 2 only declares `y`), so part (ii) puts exactly that definition into
the merged output as the canonical entry for `y`. -/
theorem cc_link_progs_def_handling_witness :
    ("redefinition of \x27" ++ (Obj.mk "x" true false false none 11).name ++ "\x27") ∈
      exRes.errs ∧
    exProgs.flatten.getD 1 default ∈ exRes.merged ∧
    (Obj.mk "y" true false false none 20) = exProgs.flatten.getD 1 default :=
  ⟨(cc_link_progs_def_handling exProgs exRes rfl (by decide)).1 0 1
      (Obj.mk "x" true false false none 10) (Obj.mk "x" true false false none 11)
      (by decide) (by decide) (by decide) (by decide) (by decide) (by decide),
   ((cc_link_progs_def_handling exProgs exRes rfl (by decide)).2 1
      (Obj.mk "y" true false false none 20) (by decide) (by decide) (by decide)).1,
   ((cc_link_progs_def_handling exProgs exRes rfl (by decide)).2 1
      (Obj.mk "y" true false false none 20) (by decide) (by decide) (by decide)).2
      (by decide) (by decide)⟩

/-! ### C4 -/

/-- C4: after a run of `cc_link_progs` on two or more units, every object of
the (post-run) concatenated input lists carries the type of the canonical
merged entry for its name: there is a merged entry with the same name and the
same `ty`. -/
theorem cc_link_progs_ty_propagated (progs : List (List Obj)) (r : LinkResult) (j : Nat)
    (h : cc_link_progs progs = .ok r) (h2 : 2 ≤ progs.length)
    (hj : j < r.store.length) :
    ∃ o, o ∈ r.merged ∧ o.name = (r.store.getD j default).name ∧
      (r.store.getD j default).ty = o.ty := by
  rw [cc_link_progs_eq progs h2] at h
  injection h with hh
  subst hh
  have I1 := link_inv1_final progs
  obtain ⟨I2, hmerged, hP4⟩ := linkP2_spec progs
  have hjn : j < progs.flatten.length := by simpa using hj
  have hgetD : ((List.range progs.flatten.length).map (linkP2 progs).store).getD j default =
      (linkP2 progs).store j := getD_range_map _ _ _ hjn
  rw [hgetD]
  have hm2 := I1.m2 j hjn
  rcases Option.isSome_iff_exists.mp hm2 with ⟨k, hk⟩
  have hm1 := I1.m1 _ _ hk
  have hcank : hmGet (linkP1 progs).map (((linkP1 progs).store k).name) = some k := by
    rw [I1.nms k, hm1.2]
    exact hk
  have hmemk : (linkP1 progs).store k ∈ (linkP2 progs).merged := by
    rw [hmerged]
    exact List.mem_filterMap.mpr ⟨k, List.mem_range.mpr hm1.1, by rw [if_pos hcank]⟩
  refine ⟨(linkP1 progs).store k, hmemk, ?_, ?_⟩
  · rw [I1.nms k, hm1.2, ← I1.nms j, ← I2.nms j]
  · by_cases hkj : k = j
    · subst hkj
      rw [I2.targ k hcank]
    · exact hP4 j hjn k (by rw [I1.nms j]; exact hk) hkj

/-- C4 witness: the type-propagation statement evaluated at position 0 of two
disjoint single-object units. -/
theorem cc_link_progs_ty_propagated_witness :
    ∃ o, o ∈ exResAB.merged ∧ o.name = (exResAB.store.getD 0 default).name ∧
      (exResAB.store.getD 0 default).ty = o.ty :=
  cc_link_progs_ty_propagated exProgsAB exResAB 0 rfl (by decide) (by decide)

end CAST
